import Mathlib

/-!
Verification of the TransformConstClassBranches pass (TransformConstClassBranches.cpp).

We shallowly embed the pass's decision logic, candidate gathering, per-dex
transform application, reference reservation accounting, ordinal assignment,
block ordering (depth-first traversal) and the copy-then-swap code installation
discipline, and prove the spec's claims about them.
-/

namespace TransformConstClassBranches

/-! Section: Basic identifiers -/

abbrev BlockId := Nat
abbrev DexTypeId := Nat
abbrev Reg := Nat
abbrev MethodId := Nat
abbrev ClassId := Nat

/-- DexClass information relevant to the pass: whether the class is external.
Mirrors `DexClass::is_external()`. -/
structure DexClassInfo where
  isExternal : Bool
deriving DecidableEq, Repr

/-- Case key of the switch-equivalence result: either the distinguished default
sentinel (`SwitchEquivFinder::DefaultCase`) or a `const DexType*` key
(`boost::variant<DefaultCase, const DexType*>`). -/
inductive CaseKey where
  | defaultCase : CaseKey
  | classKey : DexTypeId → CaseKey
deriving DecidableEq, Repr

/-- Mirrors `SwitchEquivFinder::is_default_case(key)`. -/
def is_default_case : CaseKey → Bool
  | .defaultCase => true
  | .classKey _ => false

/-- Observable result of a `SwitchEquivFinder` run, as consumed by this pass.
The finder itself lives in a separate translation unit; the pass only reads
these accessors (`success()`, `are_keys_uniform(KeyKind::CLASS)`,
`extra_loads()`, `default_case()`, `key_to_case()`, `visited_blocks()`). -/
structure SwitchEquivFinderResult where
  success : Bool
  keysUniformClass : Bool
  extraLoads : List (BlockId × Reg)
  keyToCase : List (CaseKey × BlockId)
  defaultCase : Option BlockId
  visitedBlocks : List BlockId
deriving DecidableEq, Repr

/-- Mirrors `finder_results_are_supported`: success, uniform CLASS keys, no
extra loads, and a default case present. -/
def finder_results_are_supported (f : SwitchEquivFinderResult) : Bool :=
  f.success && f.keysUniformClass && f.extraLoads.isEmpty && f.defaultCase.isSome

/-- Configuration options the gather phase reads, mirroring `PassState`. -/
structure PassState where
  consider_external_classes : Bool
  min_cases : Nat
  max_cases : Nat
deriving DecidableEq, Repr

/-- Mirrors the body of the `relevant_case_count` loop in
`gather_possible_transformations`: a key is counted when it is not the default
case and either `consider_external_classes` is set or `type_class` resolves to
a non-external class. `type_class` is modelled as a partial map from type ids
to class info. -/
def relevant_case (ps : PassState) (type_class : DexTypeId → Option DexClassInfo) :
    CaseKey × BlockId → Bool
  | (key, _) =>
    if is_default_case key then false
    else
      match key with
      | .defaultCase => false
      | .classKey t =>
        ps.consider_external_classes ||
          (match type_class t with
           | some c => !c.isExternal
           | none => false)

/-- The `relevant_case_count` computed in `gather_possible_transformations`. -/
def relevant_case_count (ps : PassState) (type_class : DexTypeId → Option DexClassInfo)
    (f : SwitchEquivFinderResult) : Nat :=
  (f.keyToCase.filter (relevant_case ps type_class)).length

/-- Per-block data the gather loop inspects for one candidate block: the block
id, whether the block ends in an `if-eq`/`if-ne` (`ends_in_if_statment`),
whether `find_determining_reg` succeeds (and for which register), and the
result the `SwitchEquivFinder` yields if it is constructed on this block. -/
structure BlockInfo where
  id : BlockId
  endsInIf : Bool
  determiningReg : Option Reg
  finder : SwitchEquivFinderResult
deriving DecidableEq, Repr

/-- Output of the gather loop: the blocks on which a `SwitchEquivFinder` was
actually constructed and run (`attempted`), and the recorded
`BranchTransform`s (block id together with its finder result). -/
structure GatherOut where
  attempted : List BlockId
  transforms : List (BlockId × SwitchEquivFinderResult)
deriving DecidableEq, Repr

/-- The block loop of `gather_possible_transformations` (the `for` over
`order_blocks` output with the `blocks_considered` set). For each block not
yet considered, it is marked considered; if it ends in an if and a determining
register is found, the finder runs (recorded in `attempted`); if the finder
results are supported, the visited blocks are added to the considered set and
the relevant case count is checked against `min_cases`/`max_cases` before a
transform is recorded. -/
def gather_loop (ps : PassState) (type_class : DexTypeId → Option DexClassInfo) :
    List BlockInfo → List BlockId → GatherOut
  | [], _ => ⟨[], []⟩
  | b :: rest, considered =>
    if b.id ∈ considered then
      gather_loop ps type_class rest considered
    else
      let considered1 := b.id :: considered
      if b.endsInIf && b.determiningReg.isSome then
        let f := b.finder
        if finder_results_are_supported f then
          let considered2 := f.visitedBlocks ++ considered1
          let rcc := relevant_case_count ps type_class f
          if rcc > ps.max_cases ∨ rcc < ps.min_cases then
            let out := gather_loop ps type_class rest considered2
            ⟨b.id :: out.attempted, out.transforms⟩
          else
            let out := gather_loop ps type_class rest considered2
            ⟨b.id :: out.attempted, (b.id, f) :: out.transforms⟩
        else
          let out := gather_loop ps type_class rest considered1
          ⟨b.id :: out.attempted, out.transforms⟩
      else
        gather_loop ps type_class rest considered1

/-- Entry point of the gather loop: considered set starts empty. -/
def gather_possible_transformations_blocks (ps : PassState)
    (type_class : DexTypeId → Option DexClassInfo) (blocks : List BlockInfo) : GatherOut :=
  gather_loop ps type_class blocks []

/-- Invariant of the gather loop: every recorded transform passed the
`finder_results_are_supported` check and the relevant-case-count range check. -/
lemma gather_loop_transforms_inv (ps : PassState) (tc : DexTypeId → Option DexClassInfo) :
    ∀ (blocks : List BlockInfo) (considered : List BlockId) (b : BlockId)
      (f : SwitchEquivFinderResult),
      (b, f) ∈ (gather_loop ps tc blocks considered).transforms →
      finder_results_are_supported f = true ∧
        ps.min_cases ≤ relevant_case_count ps tc f ∧
        relevant_case_count ps tc f ≤ ps.max_cases := by
  intro blocks
  induction blocks with
  | nil =>
    intro considered b f h
    simp [gather_loop] at h
  | cons hd tl ih =>
    intro considered b f h
    simp only [gather_loop] at h
    split at h
    · exact ih _ _ _ h
    · split at h
      · split at h
        · rename_i hsupp
          split at h
          · dsimp only at h
            exact ih _ _ _ h
          · rename_i hrange
            dsimp only at h
            simp only [List.mem_cons] at h
            rcases h with h | h
            · have hb : f = hd.finder := by
                have := congrArg Prod.snd h
                simpa using this
              subst hb
              refine ⟨hsupp, ?_, ?_⟩ <;> omega
            · exact ih _ _ _ h
        · dsimp only at h
          exact ih _ _ _ h
      · exact ih _ _ _ h

/-- C2: a candidate root branch is recorded for transformation only when the
switch-equivalence finder reports success, every key is uniformly of the class
kind, the finder observed no extra loads, and a default case exists; when any
of these conditions fails, the branch is simply not recorded (the gather loop
is a total function, so no error is raised). -/
theorem C2_transform_recorded_only_when_finder_supported
    (ps : PassState) (tc : DexTypeId → Option DexClassInfo) (blocks : List BlockInfo)
    (b : BlockId) (f : SwitchEquivFinderResult)
    (h : (b, f) ∈ (gather_possible_transformations_blocks ps tc blocks).transforms) :
    f.success = true ∧ f.keysUniformClass = true ∧ f.extraLoads = [] ∧
      f.defaultCase.isSome = true := by
  have hsupp := (gather_loop_transforms_inv ps tc blocks [] b f h).1
  simp only [finder_results_are_supported, Bool.and_eq_true,
    List.isEmpty_iff] at hsupp
  exact ⟨hsupp.1.1.1, hsupp.1.1.2, hsupp.1.2, hsupp.2⟩

/-- Witness for C2 at a concrete input: one block whose finder succeeds with a
single internal class key plus a default, under `min_cases = 1`. -/
theorem C2_transform_recorded_only_when_finder_supported_witness :
    ((0 : BlockId),
        (⟨true, true, [], [(.classKey 7, 1), (.defaultCase, 2)], some 2, [0, 1, 2]⟩ :
          SwitchEquivFinderResult)) ∈
      (gather_possible_transformations_blocks ⟨false, 1, 2000⟩ (fun _ => some ⟨false⟩)
        [⟨0, true, some 0,
          ⟨true, true, [], [(.classKey 7, 1), (.defaultCase, 2)], some 2, [0, 1, 2]⟩⟩]).transforms ∧
    ((⟨true, true, [], [(.classKey 7, 1), (.defaultCase, 2)], some 2, [0, 1, 2]⟩ :
        SwitchEquivFinderResult).success = true ∧
      (⟨true, true, [], [(.classKey 7, 1), (.defaultCase, 2)], some 2, [0, 1, 2]⟩ :
        SwitchEquivFinderResult).keysUniformClass = true ∧
      (⟨true, true, [], [(.classKey 7, 1), (.defaultCase, 2)], some 2, [0, 1, 2]⟩ :
        SwitchEquivFinderResult).extraLoads = [] ∧
      (⟨true, true, [], [(.classKey 7, 1), (.defaultCase, 2)], some 2, [0, 1, 2]⟩ :
        SwitchEquivFinderResult).defaultCase.isSome = true) :=
  ⟨by decide,
   C2_transform_recorded_only_when_finder_supported ⟨false, 1, 2000⟩
     (fun _ => some ⟨false⟩)
     [⟨0, true, some 0,
       ⟨true, true, [], [(.classKey 7, 1), (.defaultCase, 2)], some 2, [0, 1, 2]⟩⟩]
     0 ⟨true, true, [], [(.classKey 7, 1), (.defaultCase, 2)], some 2, [0, 1, 2]⟩
     (by decide)⟩

/-- C3 counterexample: with `min_cases = 5`, a chain with only `2` relevant
cases IS attempted (the `SwitchEquivFinder` is constructed and run on its root
block); the case-count filter runs only afterwards, on the finder's own
`key_to_case` output, so the claim that such a chain is filtered upstream
before the finder runs is false. -/
theorem C3_below_min_cases_still_attempted_counterexample :
    relevant_case_count ⟨false, 5, 2000⟩ (fun _ => some ⟨false⟩)
        ⟨true, true, [], [(.classKey 0, 1), (.classKey 1, 2), (.defaultCase, 3)],
          some 3, [0, 1, 2, 3]⟩ < 5 ∧
      0 ∈ (gather_possible_transformations_blocks ⟨false, 5, 2000⟩ (fun _ => some ⟨false⟩)
        [⟨0, true, some 0,
          ⟨true, true, [], [(.classKey 0, 1), (.classKey 1, 2), (.defaultCase, 3)],
            some 3, [0, 1, 2, 3]⟩⟩]).attempted := by
  decide

/-- C3 (amended): a chain whose relevant case count is below `min_cases` or
above `max_cases` is never recorded as a transform — the filter runs after the
switch-equivalence finder, on its results, but before anything is recorded. -/
theorem C3_case_count_range_enforced_before_recording
    (ps : PassState) (tc : DexTypeId → Option DexClassInfo) (blocks : List BlockInfo)
    (b : BlockId) (f : SwitchEquivFinderResult)
    (h : (b, f) ∈ (gather_possible_transformations_blocks ps tc blocks).transforms) :
    ps.min_cases ≤ relevant_case_count ps tc f ∧
      relevant_case_count ps tc f ≤ ps.max_cases :=
  (gather_loop_transforms_inv ps tc blocks [] b f h).2

/-- Witness for the amended C3 at a concrete input. -/
theorem C3_case_count_range_enforced_before_recording_witness :
    ((0 : BlockId),
        (⟨true, true, [], [(.classKey 7, 1), (.defaultCase, 2)], some 2, [0, 1, 2]⟩ :
          SwitchEquivFinderResult)) ∈
      (gather_possible_transformations_blocks ⟨false, 1, 10⟩ (fun _ => some ⟨false⟩)
        [⟨0, true, some 0,
          ⟨true, true, [], [(.classKey 7, 1), (.defaultCase, 2)], some 2, [0, 1, 2]⟩⟩]).transforms ∧
    ((⟨false, 1, 10⟩ : PassState).min_cases ≤
        relevant_case_count ⟨false, 1, 10⟩ (fun _ => some ⟨false⟩)
          ⟨true, true, [], [(.classKey 7, 1), (.defaultCase, 2)], some 2, [0, 1, 2]⟩ ∧
      relevant_case_count ⟨false, 1, 10⟩ (fun _ => some ⟨false⟩)
          ⟨true, true, [], [(.classKey 7, 1), (.defaultCase, 2)], some 2, [0, 1, 2]⟩ ≤
        (⟨false, 1, 10⟩ : PassState).max_cases) :=
  ⟨by decide,
   C3_case_count_range_enforced_before_recording ⟨false, 1, 10⟩
     (fun _ => some ⟨false⟩)
     [⟨0, true, some 0,
       ⟨true, true, [], [(.classKey 7, 1), (.defaultCase, 2)], some 2, [0, 1, 2]⟩⟩]
     0 ⟨true, true, [], [(.classKey 7, 1), (.defaultCase, 2)], some 2, [0, 1, 2]⟩
     (by decide)⟩

/-! Section: should_consider_method (claim C10) -/

/-- Opcodes distinguished by `should_consider_method` and its helpers:
`opcode::is_if_eq`, `opcode::is_if_ne` and `OPCODE_CONST_CLASS`; everything
else is irrelevant to this pass's prefilter. -/
inductive Opcode where
  | IF_EQ : Opcode
  | IF_NE : Opcode
  | CONST_CLASS : Opcode
  | OTHER : Opcode
deriving DecidableEq, Repr

def is_if_eq : Opcode → Bool
  | .IF_EQ => true
  | _ => false

def is_if_ne : Opcode → Bool
  | .IF_NE => true
  | _ => false

/-- Data of one CFG block as read by the prefilter: whether `Block::is_catch()`
holds and the block's instruction opcodes in order. -/
structure BlockLite where
  isCatch : Bool
  insns : List Opcode
deriving DecidableEq, Repr

/-- Mirrors `ends_in_if_statment`: false when the block has no last
instruction, otherwise true iff the last opcode is if-eq or if-ne. -/
def ends_in_if_statment (b : BlockLite) : Bool :=
  match b.insns.getLast? with
  | none => false
  | some op => is_if_eq op || is_if_ne op

/-- Data of a method's CFG as read by the prefilter: `cfg.blocks()` in
iteration order. -/
structure CodeLite where
  blocks : List BlockLite
deriving DecidableEq, Repr

/-- Mirrors `num_const_class_opcodes`: counts `OPCODE_CONST_CLASS` over all
instructions of the CFG. -/
def num_const_class_opcodes (cfg : CodeLite) : Nat :=
  (cfg.blocks.map (fun b => (b.insns.filter (fun op => op == .CONST_CLASS)).length)).sum

/-- Data of a method as read by the prefilter. -/
structure MethodLite where
  noOptimizations : Bool
  code : Option CodeLite
deriving DecidableEq, Repr

/-- Result of the block scan loop inside `should_consider_method`: the loop
returns false from inside on a catch block, breaks with `found_branch = true`
on an if-ending block, or falls off the end with `found_branch = false`. -/
inductive ScanResult where
  | rejected : ScanResult
  | foundBranch : ScanResult
  | noBranch : ScanResult
deriving DecidableEq, Repr

/-- The `for (const auto* b : cfg.blocks())` loop of `should_consider_method`:
a catch block causes an immediate `return false`; otherwise an if-ending block
sets `found_branch` and breaks. -/
def scan_blocks : List BlockLite → ScanResult
  | [] => .noBranch
  | b :: rest =>
    if b.isCatch then .rejected
    else if ends_in_if_statment b then .foundBranch
    else scan_blocks rest

/-- Mirrors `should_consider_method`: reject no-optimizations methods and
methods without code; scan the blocks; require a branch to have been found and
at least `min_cases` const-class opcodes. -/
def should_consider_method (ps : PassState) (m : MethodLite) : Bool :=
  if m.noOptimizations then false
  else
    match m.code with
    | none => false
    | some cfg =>
      (match scan_blocks cfg.blocks with
       | .foundBranch => true
       | _ => false) &&
        decide (num_const_class_opcodes cfg ≥ ps.min_cases)

/-- Helper: a successful scan decomposes the block list into a prefix of
non-catch, non-if-ending blocks followed by a non-catch if-ending block. -/
lemma scan_blocks_foundBranch_decomp :
    ∀ bs : List BlockLite, scan_blocks bs = .foundBranch →
      ∃ pfx b sfx, bs = pfx ++ b :: sfx ∧
        (∀ p ∈ pfx, p.isCatch = false ∧ ends_in_if_statment p = false) ∧
        b.isCatch = false ∧ ends_in_if_statment b = true := by
  intro bs
  induction bs with
  | nil => intro h; simp [scan_blocks] at h
  | cons hd tl ih =>
    intro h
    simp only [scan_blocks] at h
    by_cases hc : hd.isCatch
    · simp [hc] at h
    · simp only [hc, if_false] at h
      by_cases hif : ends_in_if_statment hd
      · refine ⟨[], hd, tl, by simp, by simp, ?_, hif⟩
        simpa using hc
      · simp only [hif, if_false] at h
        obtain ⟨pfx, b, sfx, hbs, hpfx, hb⟩ := ih h
        refine ⟨hd :: pfx, b, sfx, by simp [hbs], ?_, hb⟩
        intro p hp
        rcases List.mem_cons.mp hp with rfl | hp
        · exact ⟨by simpa using hc, by simpa using hif⟩
        · exact hpfx p hp

/-- C10: `should_consider_method` returns true only if the method is not
no-optimizations, has code, the CFG has at least `min_cases` const-class
instructions, and the block iteration order contains an if-eq/if-ne-ending
block preceded by no catch block (and which is itself not a catch block);
in particular a method whose first special block is a catch handler is
rejected before any finder work. -/
theorem C10_should_consider_method_necessary_conditions
    (ps : PassState) (m : MethodLite)
    (h : should_consider_method ps m = true) :
    m.noOptimizations = false ∧
      ∃ cfg, m.code = some cfg ∧
        ps.min_cases ≤ num_const_class_opcodes cfg ∧
        ∃ pfx b sfx, cfg.blocks = pfx ++ b :: sfx ∧
          (∀ p ∈ pfx, p.isCatch = false ∧ ends_in_if_statment p = false) ∧
          b.isCatch = false ∧ ends_in_if_statment b = true := by
  unfold should_consider_method at h
  cases hno : m.noOptimizations with
  | true => rw [hno] at h; simp at h
  | false =>
    rw [hno] at h
    rw [if_neg Bool.false_ne_true] at h
    refine ⟨rfl, ?_⟩
    match hm : m.code with
    | none => rw [hm] at h; simp at h
    | some cfg =>
      rw [hm] at h
      simp only [Bool.and_eq_true, decide_eq_true_eq] at h
      refine ⟨cfg, rfl, h.2, ?_⟩
      have hscan : scan_blocks cfg.blocks = .foundBranch := by
        rcases hs : scan_blocks cfg.blocks with _ | _ | _ <;> rw [hs] at h <;>
          first | rfl | simp at h
      exact scan_blocks_foundBranch_decomp cfg.blocks hscan

/-- Witness for C10 at a concrete method: two blocks, the second ending in
if-eq, one const-class instruction, `min_cases = 1`. -/
theorem C10_should_consider_method_necessary_conditions_witness :
    should_consider_method ⟨false, 1, 2000⟩
        ⟨false, some ⟨[⟨false, [.CONST_CLASS]⟩, ⟨false, [.OTHER, .IF_EQ]⟩]⟩⟩ = true ∧
      ((⟨false, some ⟨[⟨false, [.CONST_CLASS]⟩, ⟨false, [.OTHER, .IF_EQ]⟩]⟩⟩ :
          MethodLite).noOptimizations = false ∧
        ∃ cfg, (⟨false, some ⟨[⟨false, [.CONST_CLASS]⟩, ⟨false, [.OTHER, .IF_EQ]⟩]⟩⟩ :
            MethodLite).code = some cfg ∧
          (⟨false, 1, 2000⟩ : PassState).min_cases ≤ num_const_class_opcodes cfg ∧
          ∃ pfx b sfx, cfg.blocks = pfx ++ b :: sfx ∧
            (∀ p ∈ pfx, p.isCatch = false ∧ ends_in_if_statment p = false) ∧
            b.isCatch = false ∧ ends_in_if_statment b = true) :=
  ⟨by decide,
   C10_should_consider_method_necessary_conditions ⟨false, 1, 2000⟩
     ⟨false, some ⟨[⟨false, [.CONST_CLASS]⟩, ⟨false, [.OTHER, .IF_EQ]⟩]⟩⟩
     (by decide)⟩

/-! Section: Ordinal assignment for the generated switch (claim C8) -/

/-- Insertion into a strictly sorted list of distinct elements, mirroring
`std::set<const DexType*, dextypes_comparator>::emplace`: `dextypes_comparator`
is a strict total order on types, modelled here by `<` on type ids. -/
def insert_sorted (t : DexTypeId) : List DexTypeId → List DexTypeId
  | [] => [t]
  | x :: xs =>
    if t < x then t :: x :: xs
    else if t = x then x :: xs
    else x :: insert_sorted t xs

/-- Mirrors the `ordered_types` set built in `apply_transform`: every
non-default key of `key_to_case` is inserted into the ordered set. -/
def ordered_types (keys : List CaseKey) : List DexTypeId :=
  keys.foldl
    (fun acc k =>
      match k with
      | .defaultCase => acc
      | .classKey t => insert_sorted t acc)
    []

/-- The sentinel `STRING_TREE_NO_ENTRY` reserved for the default case. -/
def STRING_TREE_NO_ENTRY : Nat := 0

/-- Reduction modulo `2 ^ 16`, modelling the `int16_t` counter's bit pattern;
two ordinals collide as `int32_t` switch keys iff their 16-bit patterns
coincide. -/
def wrap16 (n : Nat) : Nat := n % 65536

/-- Mirrors the `counter++` ordinal assignment loop over `ordered_types`. -/
def assign_ordinals (counter : Nat) : List DexTypeId → List (Nat × DexTypeId)
  | [] => []
  | t :: ts => (wrap16 counter, t) :: assign_ordinals (counter + 1) ts

/-- Mirrors the construction of `new_edges`: each ordered type gets the next
ordinal, paired with `key_to_case.at(type)`. -/
def new_edges_of (key_to_case : List (CaseKey × BlockId)) : List (Nat × BlockId) :=
  (assign_ordinals (STRING_TREE_NO_ENTRY + 1) (ordered_types (key_to_case.map Prod.fst))).map
    (fun p => (p.1, ((key_to_case.lookup (.classKey p.2)).getD 0)))

/-- Modelled from the spec: `create_branch` (CFG editing protocol, not under
src/) requires the switch case keys to be pairwise distinct. -/
def create_branch_keys_distinct (edges : List (Nat × BlockId)) : Prop :=
  (edges.map Prod.fst).Nodup

lemma mem_insert_sorted {t x : DexTypeId} :
    ∀ l : List DexTypeId, x ∈ insert_sorted t l ↔ x = t ∨ x ∈ l := by
  intro l
  induction l with
  | nil => simp [insert_sorted]
  | cons hd tl ih =>
    simp only [insert_sorted]
    split
    · simp
    · split
      · rename_i h1 h2
        subst h2
        simp only [List.mem_cons]
        tauto
      · simp only [List.mem_cons, ih]
        tauto

lemma insert_sorted_pairwise {t : DexTypeId} :
    ∀ l : List DexTypeId, l.Pairwise (· < ·) → (insert_sorted t l).Pairwise (· < ·) := by
  intro l
  induction l with
  | nil => intro _; simp [insert_sorted]
  | cons hd tl ih =>
    intro hl
    rcases List.pairwise_cons.mp hl with ⟨hhd, htl⟩
    simp only [insert_sorted]
    split
    · rename_i hlt
      refine List.pairwise_cons.mpr ⟨?_, hl⟩
      intro y hy
      rcases List.mem_cons.mp hy with rfl | hy
      · exact hlt
      · exact lt_trans hlt (hhd y hy)
    · split
      · exact hl
      · rename_i h1 h2
        refine List.pairwise_cons.mpr ⟨?_, ih htl⟩
        intro y hy
        rcases (mem_insert_sorted tl).mp hy with rfl | hy
        · exact Nat.lt_of_le_of_ne (Nat.not_lt.mp h1) (Ne.symm h2)
        · exact hhd y hy

/-- The `ordered_types` list is strictly sorted (hence its types are
distinct). -/
lemma ordered_types_pairwise (keys : List CaseKey) :
    (ordered_types keys).Pairwise (· < ·) := by
  suffices h : ∀ (ks : List CaseKey) (acc : List DexTypeId),
      acc.Pairwise (· < ·) →
      (ks.foldl
        (fun acc k =>
          match k with
          | CaseKey.defaultCase => acc
          | CaseKey.classKey t => insert_sorted t acc)
        acc).Pairwise (· < ·) by
    exact h keys [] (by simp)
  intro ks
  induction ks with
  | nil => intro acc hacc; simpa using hacc
  | cons hd tl ih =>
    intro acc hacc
    cases hd with
    | defaultCase => exact ih acc hacc
    | classKey t => exact ih _ (insert_sorted_pairwise acc hacc)

lemma assign_ordinals_fst :
    ∀ (ts : List DexTypeId) (counter : Nat),
      (assign_ordinals counter ts).map Prod.fst =
        (List.range ts.length).map (fun i => wrap16 (counter + i)) := by
  intro ts
  induction ts with
  | nil => intro counter; simp [assign_ordinals]
  | cons hd tl ih =>
    intro counter
    simp only [assign_ordinals, List.map_cons, List.length_cons,
      List.range_succ_eq_map, List.map_map]
    refine congrArg₂ List.cons (by simp) ?_
    rw [ih (counter + 1)]
    refine List.map_congr_left ?_
    intro i _
    simp only [Function.comp_apply]
    have harg : counter + 1 + i = counter + (i + 1) := by omega
    rw [harg]

/-- C8: the keys handed to `create_branch` are exactly the consecutive
ordinals `1, 2, …, n` (for `n` ordered types), hence pairwise distinct and
never the reserved sentinel `0`; the distinct-keys precondition of
`create_branch` is satisfied. The hypothesis bounds the number of distinct
switched-on types by `2 ^ 16 - 1`, below which the `int16_t` counter cannot
wrap (a dex file cannot reference that many types). -/
theorem C8_new_edges_keys_distinct_and_nonzero
    (key_to_case : List (CaseKey × BlockId))
    (h : (ordered_types (key_to_case.map Prod.fst)).length ≤ 65535) :
    ((new_edges_of key_to_case).map Prod.fst =
        (List.range (ordered_types (key_to_case.map Prod.fst)).length).map
          (fun i => i + 1)) ∧
      create_branch_keys_distinct (new_edges_of key_to_case) ∧
      ∀ k ∈ (new_edges_of key_to_case).map Prod.fst, k ≠ STRING_TREE_NO_ENTRY := by
  have hkeys : (new_edges_of key_to_case).map Prod.fst =
      (List.range (ordered_types (key_to_case.map Prod.fst)).length).map
        (fun i => i + 1) := by
    unfold new_edges_of
    rw [List.map_map]
    rw [show (Prod.fst ∘
        (fun p : Nat × DexTypeId => (p.1, ((key_to_case.lookup (.classKey p.2)).getD 0)))) =
        (Prod.fst : Nat × DexTypeId → Nat) from rfl]
    rw [assign_ordinals_fst]
    refine List.map_congr_left ?_
    intro i hi
    rw [List.mem_range] at hi
    show wrap16 (STRING_TREE_NO_ENTRY + 1 + i) = i + 1
    unfold wrap16 STRING_TREE_NO_ENTRY
    omega
  refine ⟨hkeys, ?_, ?_⟩
  · unfold create_branch_keys_distinct
    rw [hkeys]
    exact List.Nodup.map (fun a b hab => by omega) (List.nodup_range _)
  · intro k hk
    rw [hkeys] at hk
    simp only [List.mem_map, List.mem_range] at hk
    obtain ⟨i, _, rfl⟩ := hk
    unfold STRING_TREE_NO_ENTRY
    omega

/-- Witness for C8 at a concrete `key_to_case` with two class keys and a
default. -/
theorem C8_new_edges_keys_distinct_and_nonzero_witness :
    (ordered_types (([((.classKey 9 : CaseKey), (4 : BlockId)), (.classKey 3, 5),
          (.defaultCase, 6)]).map Prod.fst)).length ≤ 65535 ∧
      (((new_edges_of [((.classKey 9 : CaseKey), (4 : BlockId)), (.classKey 3, 5),
            (.defaultCase, 6)]).map Prod.fst =
          (List.range (ordered_types (([((.classKey 9 : CaseKey), (4 : BlockId)),
              (.classKey 3, 5), (.defaultCase, 6)]).map Prod.fst)).length).map
            (fun i => i + 1)) ∧
        create_branch_keys_distinct (new_edges_of [((.classKey 9 : CaseKey), (4 : BlockId)),
          (.classKey 3, 5), (.defaultCase, 6)]) ∧
        ∀ k ∈ (new_edges_of [((.classKey 9 : CaseKey), (4 : BlockId)), (.classKey 3, 5),
            (.defaultCase, 6)]).map Prod.fst, k ≠ STRING_TREE_NO_ENTRY) :=
  ⟨by decide,
   C8_new_edges_keys_distinct_and_nonzero
     [((.classKey 9 : CaseKey), (4 : BlockId)), (.classKey 3, 5), (.defaultCase, 6)]
     (by decide)⟩

/-! Section: Per-dex transform application (claims C1, C4, C5, C7) -/

/-- Opaque method code: a flat instruction stream. Copying an `IRCode` value
is value copying, so a snapshot is just the value at snapshot time. -/
abbrev Code := List Nat

/-- Mirrors the `MethodTransform` record gathered per method: the method, its
class, the code copy taken at gather time (`std::make_unique<IRCode>(*
method->get_code())`), and the number of planned `BranchTransform`s.
`method` ids are ordered by `compare_dexmethods`, modelled as `<` on ids. -/
structure MethodTransform where
  method : MethodId
  cls : ClassId
  code_copy : Code
  transforms_size : Nat
deriving DecidableEq, Repr

/-- Total number of branch transforms in a list of method transforms. -/
def sum_transform_sizes (l : List MethodTransform) : Nat :=
  (l.map (fun mt => mt.transforms_size)).sum

/-- The `compare_dexmethods` order lifted to method transforms, as used by the
`std::sort` call in `apply_transforms_dex`. -/
def methodLE (a b : MethodTransform) : Prop := a.method ≤ b.method

instance : DecidableRel methodLE := fun a b => Nat.decLe a.method b.method

instance : IsTotal MethodTransform methodLE := ⟨fun a b => Nat.le_total a.method b.method⟩

instance : IsTrans MethodTransform methodLE := ⟨fun _ _ _ => Nat.le_trans⟩

/-- The cap loop of `apply_transforms_dex`: walk the candidates, keep applying
while `transform_count + size` stays within the cap, `break` at the first
candidate that would exceed it. Returns the applied candidates in order. -/
def select_transforms (cap : Nat) : Nat → List MethodTransform → List MethodTransform
  | _, [] => []
  | cnt, mt :: rest =>
    if cnt + mt.transforms_size > cap then []
    else mt :: select_transforms cap (cnt + mt.transforms_size) rest

/-- Collect the candidates of one dex file (the classes of `dex_file`),
mirroring the `per_class_transforms` lookup loop. -/
def per_dex_candidates (dexClasses : List ClassId) (mts : List MethodTransform) :
    List MethodTransform :=
  mts.filter (fun mt => mt.cls ∈ dexClasses)

/-- Mirrors `apply_transforms_dex`: sort the per-dex candidates ascending by
`compare_dexmethods` and walk them from the back (`rbegin`/`rend`, i.e. the
reverse of the sorted list) under the cap. -/
def apply_transforms_dex_order (cap : Nat) (mts : List MethodTransform) :
    List MethodTransform :=
  select_transforms cap 0 ((List.insertionSort methodLE mts).reverse)

/-- Applied transforms of one dex: filter to the dex's classes, then the
sorted capped walk. -/
def apply_transforms_dex_model (cap : Nat) (dexClasses : List ClassId)
    (mts : List MethodTransform) : List MethodTransform :=
  apply_transforms_dex_order cap (per_dex_candidates dexClasses mts)

lemma select_transforms_sum_le (cap : Nat) :
    ∀ (l : List MethodTransform) (cnt : Nat), cnt ≤ cap →
      cnt + sum_transform_sizes (select_transforms cap cnt l) ≤ cap := by
  intro l
  induction l with
  | nil => intro cnt h; simpa [select_transforms, sum_transform_sizes] using h
  | cons mt rest ih =>
    intro cnt h
    simp only [select_transforms]
    split
    · simpa [sum_transform_sizes] using h
    · rename_i hle
      have := ih (cnt + mt.transforms_size) (by omega)
      simp only [sum_transform_sizes, List.map_cons, List.sum_cons] at this ⊢
      omega

lemma select_transforms_take (cap : Nat) :
    ∀ (l : List MethodTransform) (cnt : Nat),
      ∃ k, select_transforms cap cnt l = l.take k := by
  intro l
  induction l with
  | nil => intro cnt; exact ⟨0, rfl⟩
  | cons mt rest ih =>
    intro cnt
    simp only [select_transforms]
    split
    · exact ⟨0, rfl⟩
    · obtain ⟨k, hk⟩ := ih (cnt + mt.transforms_size)
      exact ⟨k + 1, by simp [hk]⟩

lemma select_transforms_sublist (cap cnt : Nat) (l : List MethodTransform) :
    (select_transforms cap cnt l).Sublist l := by
  obtain ⟨k, hk⟩ := select_transforms_take cap l cnt
  rw [hk]
  exact List.take_sublist k l

/-- C4: the applied transforms of a dex respect the cap — their total branch
transform count is at most `transforms_per_dex` — and they form a prefix of
the descending `compare_dexmethods` order (the back of the sorted candidate
list), the excess candidates being skipped once the next candidate would
exceed the cap. -/
theorem C4_per_dex_cap_and_priority_order (cap : Nat) (dexClasses : List ClassId)
    (mts : List MethodTransform) :
    sum_transform_sizes (apply_transforms_dex_model cap dexClasses mts) ≤ cap ∧
      ∃ k, apply_transforms_dex_model cap dexClasses mts =
        ((List.insertionSort methodLE (per_dex_candidates dexClasses mts)).reverse).take k := by
  constructor
  · have := select_transforms_sum_le cap
      ((List.insertionSort methodLE (per_dex_candidates dexClasses mts)).reverse) 0
      (Nat.zero_le cap)
    simpa [apply_transforms_dex_model, apply_transforms_dex_order] using this
  · exact select_transforms_take cap _ 0

/-- Strict version of the method order, used to state sortedness uniqueness. -/
def methodLT (a b : MethodTransform) : Prop := a.method < b.method

/-- Two lists that are permutations of each other, both pairwise strictly
increasing in method order, are equal. -/
lemma eq_of_perm_of_pairwise_methodLT :
    ∀ {l₁ l₂ : List MethodTransform}, l₁.Perm l₂ →
      l₁.Pairwise methodLT → l₂.Pairwise methodLT → l₁ = l₂ := by
  intro l₁
  induction l₁ with
  | nil =>
    intro l₂ hp _ _
    exact (hp.symm.eq_nil).symm
  | cons a t₁ ih =>
    intro l₂ hp h₁ h₂
    cases l₂ with
    | nil => exact absurd hp.eq_nil (by simp)
    | cons b t₂ =>
      have hab : a = b := by
        have ha : a ∈ b :: t₂ := hp.mem_iff.mp (List.mem_cons_self a t₁)
        rcases List.mem_cons.mp ha with h | h
        · exact h
        · have hba : b.method < a.method := (List.pairwise_cons.mp h₂).1 a h
          have hb : b ∈ a :: t₁ := hp.mem_iff.mpr (List.mem_cons_self b t₂)
          rcases List.mem_cons.mp hb with h' | h'
          · exact h'.symm
          · have hab' : a.method < b.method := (List.pairwise_cons.mp h₁).1 b h'
            exact absurd hab' (Nat.lt_asymm hba)
      subst hab
      have hp' : t₁.Perm t₂ := hp.cons_inv
      rw [ih hp' (List.pairwise_cons.mp h₁).2 (List.pairwise_cons.mp h₂).2]

/-- Sorting a list with pairwise-distinct methods yields a list that depends
only on the multiset of entries, not on their arrival order. -/
lemma insertionSort_eq_of_perm_of_nodup
    {l₁ l₂ : List MethodTransform} (hp : l₁.Perm l₂)
    (hnd : (l₁.map (fun mt => mt.method)).Nodup) :
    List.insertionSort methodLE l₁ = List.insertionSort methodLE l₂ := by
  have hperm : (List.insertionSort methodLE l₁).Perm (List.insertionSort methodLE l₂) :=
    (List.perm_insertionSort methodLE l₁).trans
      (hp.trans (List.perm_insertionSort methodLE l₂).symm)
  have hnd₁ : ((List.insertionSort methodLE l₁).map (fun mt => mt.method)).Nodup :=
    ((List.perm_insertionSort methodLE l₁).map (fun mt => mt.method)).nodup_iff.mpr hnd
  have hnd₂ : ((List.insertionSort methodLE l₂).map (fun mt => mt.method)).Nodup :=
    (hperm.map (fun mt => mt.method)).nodup_iff.mp hnd₁
  have hlt : ∀ {l : List MethodTransform}, l.Sorted methodLE →
      (l.map (fun mt => mt.method)).Nodup → l.Pairwise methodLT := by
    intro l hs hn
    have hne : l.Pairwise (fun a b => a.method ≠ b.method) :=
      (List.pairwise_map).mp hn
    exact (hs.and hne).imp (fun h => Nat.lt_of_le_of_ne h.1 h.2)
  exact eq_of_perm_of_pairwise_methodLT hperm
    (hlt (List.sorted_insertionSort methodLE l₁) hnd₁)
    (hlt (List.sorted_insertionSort methodLE l₂) hnd₂)

/-- C5: the set and order of transforms applied per dex is independent of the
order in which the parallel gather phase appended the candidates: for any two
arrival orders (permutations) of the same candidates, with each method
contributing at most one entry, the applied transform list is identical. -/
theorem C5_applied_transforms_schedule_independent
    (cap : Nat) (dexClasses : List ClassId) {mts₁ mts₂ : List MethodTransform}
    (hp : mts₁.Perm mts₂)
    (hnd : (mts₁.map (fun mt => mt.method)).Nodup) :
    apply_transforms_dex_model cap dexClasses mts₁ =
      apply_transforms_dex_model cap dexClasses mts₂ := by
  unfold apply_transforms_dex_model apply_transforms_dex_order per_dex_candidates
  have hpf : (mts₁.filter (fun mt => decide (mt.cls ∈ dexClasses))).Perm
      (mts₂.filter (fun mt => decide (mt.cls ∈ dexClasses))) := hp.filter _
  have hndf : ((mts₁.filter (fun mt => decide (mt.cls ∈ dexClasses))).map
      (fun mt => mt.method)).Nodup :=
    hnd.sublist ((List.filter_sublist _).map _)
  rw [insertionSort_eq_of_perm_of_nodup hpf hndf]

/-- Witness for C5: two arrival orders of the same two candidates. -/
theorem C5_applied_transforms_schedule_independent_witness :
    ([⟨1, 0, [], 1⟩, ⟨2, 0, [], 1⟩] : List MethodTransform).Perm
        [⟨2, 0, [], 1⟩, ⟨1, 0, [], 1⟩] ∧
      (([⟨1, 0, [], 1⟩, ⟨2, 0, [], 1⟩] : List MethodTransform).map
        (fun mt => mt.method)).Nodup ∧
      apply_transforms_dex_model 10 [0] [⟨1, 0, [], 1⟩, ⟨2, 0, [], 1⟩] =
        apply_transforms_dex_model 10 [0] [⟨2, 0, [], 1⟩, ⟨1, 0, [], 1⟩] :=
  ⟨by decide, by decide,
   C5_applied_transforms_schedule_independent 10 [0]
     (by decide) (by decide)⟩

/-! Section: Reference reservation (claim C7) -/

/-- Mirrors `ReserveRefsInfo(frefs, trefs, mrefs)`. -/
structure ReserveRefsInfo where
  frefs : Nat
  trefs : Nat
  mrefs : Nat
deriving DecidableEq, Repr

/-- Mirrors `eval_pass`: reserve 0 field refs, 1 type ref and
`2 + transforms_per_dex` method refs. -/
def eval_pass_reserved (transforms_per_dex : Nat) : ReserveRefsInfo :=
  ⟨0, 1, 2 + transforms_per_dex⟩

/-- Upper bound on method references created in one dex, from `apply_transform`:
one generated string-getter method per applied branch transform, plus the
string-tree lookup method and the `RuntimeException` constructor. -/
def created_method_refs (applied : List MethodTransform) : Nat :=
  sum_transform_sizes applied + 2

/-- Type references created per dex: only `Ljava/lang/RuntimeException;` in the
generated getter bodies. -/
def created_type_refs : Nat := 1

/-- Field references created per dex: none. -/
def created_field_refs : Nat := 0

/-- Mirrors the start of `run_pass`: `always_assert(m_reserved_refs_handle)`
then `release_reserved_refs`; `none` models the assertion firing. -/
def run_pass_release (handle : Option ReserveRefsInfo) : Option (Option ReserveRefsInfo) :=
  match handle with
  | none => none
  | some _ => some none

/-- C7: the references actually created in any dex never exceed the bound
reserved by `eval_pass` (1 type ref, `2 + transforms_per_dex` method refs, 0
field refs), and `run_pass` releases the reservation (the handle is cleared)
before doing any work. -/
theorem C7_created_refs_within_reservation (cap : Nat) (dexClasses : List ClassId)
    (mts : List MethodTransform) :
    created_method_refs (apply_transforms_dex_model cap dexClasses mts) ≤
        (eval_pass_reserved cap).mrefs ∧
      created_type_refs ≤ (eval_pass_reserved cap).trefs ∧
      created_field_refs ≤ (eval_pass_reserved cap).frefs ∧
      run_pass_release (some (eval_pass_reserved cap)) = some none := by
  refine ⟨?_, le_refl _, le_refl _, rfl⟩
  have := select_transforms_sum_le cap
    ((List.insertionSort methodLE (per_dex_candidates dexClasses mts)).reverse) 0
    (Nat.zero_le cap)
  simp only [Nat.zero_add] at this
  simp only [created_method_refs, eval_pass_reserved, apply_transforms_dex_model,
    apply_transforms_dex_order]
  omega

/-! Section: Copy-then-swap code installation (claim C1) -/

/-- Mirrors the start of `gather_possible_transformations`: for each method
with planned transforms, gather records a `MethodTransform` whose `code_copy`
is a snapshot of the method's live code at gather time; the live code map is
not touched. `planned` lists, per method, its class and planned branch
transform count. -/
def gather_phase (codes : MethodId → Code) (planned : List (MethodId × ClassId × Nat)) :
    List MethodTransform :=
  planned.map (fun p => ⟨p.1, p.2.1, codes p.1, p.2.2⟩)

/-- Mirrors `DexMethod::set_code`. -/
def set_code (codes : MethodId → Code) (m : MethodId) (c : Code) : MethodId → Code :=
  fun x => if x = m then c else codes x

/-- Mirrors the tail of `apply_transform`: edit the copy, then
`method->set_code(std::move(mt.code_copy))` — the live code changes only
here, to the edited copy. `edit` stands for the whole CFG editing work. -/
def apply_transform_code (edit : Code → Code) (codes : MethodId → Code)
    (mt : MethodTransform) : MethodId → Code :=
  set_code codes mt.method (edit mt.code_copy)

/-- The `stats += apply_transform(...)` loop over the applied candidates. -/
def apply_all (edit : Code → Code) (codes : MethodId → Code)
    (applied : List MethodTransform) : MethodId → Code :=
  applied.foldl (apply_transform_code edit) codes

/-- Mirrors `run_pass` restricted to one dex: gather snapshots, select the
applied candidates under the cap, and install each applied method's edited
copy. -/
def run_pass_codes (cap : Nat) (dexClasses : List ClassId) (edit : Code → Code)
    (codes : MethodId → Code) (planned : List (MethodId × ClassId × Nat)) :
    MethodId → Code :=
  apply_all edit codes
    (apply_transforms_dex_model cap dexClasses (gather_phase codes planned))

lemma apply_all_not_mem (edit : Code → Code) :
    ∀ (applied : List MethodTransform) (codes : MethodId → Code) (m : MethodId),
      m ∉ applied.map (fun mt => mt.method) →
      apply_all edit codes applied m = codes m := by
  intro applied
  induction applied with
  | nil => intro codes m _; rfl
  | cons a rest ih =>
    intro codes m hm
    simp only [List.map_cons, List.mem_cons, not_or] at hm
    simp only [apply_all, List.foldl_cons]
    have := ih (apply_transform_code edit codes a) m hm.2
    simp only [apply_all] at this
    rw [this]
    simp [apply_transform_code, set_code, hm.1]

lemma apply_all_mem (edit : Code → Code) :
    ∀ (applied : List MethodTransform) (codes : MethodId → Code) (mt : MethodTransform),
      (applied.map (fun mt => mt.method)).Nodup → mt ∈ applied →
      apply_all edit codes applied mt.method = edit mt.code_copy := by
  intro applied
  induction applied with
  | nil => intro _ _ _ h; simp at h
  | cons a rest ih =>
    intro codes mt hnd hmt
    simp only [List.map_cons, List.nodup_cons] at hnd
    rcases List.mem_cons.mp hmt with rfl | hmt
    · simp only [apply_all, List.foldl_cons]
      have := apply_all_not_mem edit rest (apply_transform_code edit codes mt)
        mt.method hnd.1
      simp only [apply_all] at this
      rw [this]
      simp [apply_transform_code, set_code]
    · simp only [apply_all, List.foldl_cons]
      exact ih (apply_transform_code edit codes a) mt hnd.2 hmt

lemma applied_mem_gather (cap : Nat) (dexClasses : List ClassId)
    (mts : List MethodTransform) {mt : MethodTransform}
    (h : mt ∈ apply_transforms_dex_model cap dexClasses mts) : mt ∈ mts := by
  unfold apply_transforms_dex_model apply_transforms_dex_order at h
  have h1 := (select_transforms_sublist cap 0 _).mem h
  rw [List.mem_reverse] at h1
  have h2 := (List.perm_insertionSort methodLE _).mem_iff.mp h1
  exact (List.filter_sublist _).mem h2

lemma gather_phase_code_copy (codes : MethodId → Code)
    (planned : List (MethodId × ClassId × Nat)) {mt : MethodTransform}
    (h : mt ∈ gather_phase codes planned) : mt.code_copy = codes mt.method := by
  unfold gather_phase at h
  simp only [List.mem_map] at h
  obtain ⟨p, _, rfl⟩ := h
  rfl

lemma applied_map_method_nodup (cap : Nat) (dexClasses : List ClassId)
    (mts : List MethodTransform)
    (hnd : (mts.map (fun mt => mt.method)).Nodup) :
    ((apply_transforms_dex_model cap dexClasses mts).map (fun mt => mt.method)).Nodup := by
  unfold apply_transforms_dex_model apply_transforms_dex_order
  have h1 : ((per_dex_candidates dexClasses mts).map (fun mt => mt.method)).Nodup :=
    hnd.sublist ((List.filter_sublist _).map _)
  have h2 : ((List.insertionSort methodLE (per_dex_candidates dexClasses mts)).map
      (fun mt => mt.method)).Nodup :=
    ((List.perm_insertionSort methodLE _).map (fun mt => mt.method)).nodup_iff.mpr h1
  have h3 : ((List.insertionSort methodLE (per_dex_candidates dexClasses mts)).reverse.map
      (fun mt => mt.method)).Nodup := by
    rw [List.map_reverse]
    exact List.nodup_reverse.mpr h2
  exact h3.sublist ((select_transforms_sublist cap 0 _).map _)

/-- C1: all edits act on the gather-time snapshot, and the live code changes
only when an applied transform installs its edited copy: a method not among
the applied transforms (in particular one whose planned transforms were
skipped by the per-dex cap) keeps its live code unchanged, and an applied
method's final code is the edit of its gather-time snapshot. -/
theorem C1_copy_then_swap (cap : Nat) (dexClasses : List ClassId) (edit : Code → Code)
    (codes : MethodId → Code) (planned : List (MethodId × ClassId × Nat))
    (hnd : (planned.map (fun p => p.1)).Nodup) :
    (∀ m, m ∉ (apply_transforms_dex_model cap dexClasses
          (gather_phase codes planned)).map (fun mt => mt.method) →
        run_pass_codes cap dexClasses edit codes planned m = codes m) ∧
      (∀ mt ∈ apply_transforms_dex_model cap dexClasses (gather_phase codes planned),
        run_pass_codes cap dexClasses edit codes planned mt.method =
          edit (codes mt.method)) := by
  have hgnd : ((gather_phase codes planned).map (fun mt => mt.method)).Nodup := by
    unfold gather_phase
    rw [List.map_map]
    exact hnd
  constructor
  · intro m hm
    exact apply_all_not_mem edit _ codes m hm
  · intro mt hmt
    have hcopy : mt.code_copy = codes mt.method :=
      gather_phase_code_copy codes planned (applied_mem_gather cap dexClasses _ hmt)
    have := apply_all_mem edit _ codes mt
      (applied_map_method_nodup cap dexClasses _ hgnd) hmt
    rw [hcopy] at this
    exact this

/-- Witness for C1: two planned methods, cap 1, so method 2 (applied, the
larger in the descending walk) is installed and method 1 is skipped by the
cap and keeps its code. -/
theorem C1_copy_then_swap_witness :
    (([((1 : MethodId), (0 : ClassId), (1 : Nat)), (2, 0, 1)]).map
        (fun p => p.1)).Nodup ∧
      ((∀ m, m ∉ (apply_transforms_dex_model 1 [0]
            (gather_phase (fun m => [m]) [(1, 0, 1), (2, 0, 1)])).map
              (fun mt => mt.method) →
          run_pass_codes 1 [0] (fun c => 0 :: c) (fun m => [m])
            [(1, 0, 1), (2, 0, 1)] m = (fun m => [m]) m) ∧
        (∀ mt ∈ apply_transforms_dex_model 1 [0]
            (gather_phase (fun m => [m]) [(1, 0, 1), (2, 0, 1)]),
          run_pass_codes 1 [0] (fun c => 0 :: c) (fun m => [m])
            [(1, 0, 1), (2, 0, 1)] mt.method = (fun c => 0 :: c) ((fun m => [m]) mt.method))) :=
  ⟨by decide,
   C1_copy_then_swap 1 [0] (fun c => 0 :: c) (fun m => [m])
     [(1, 0, 1), (2, 0, 1)] (by decide)⟩

/-! Section: order_blocks: depth-first block ordering (claim C9) -/

/-- A CFG as `order_blocks` sees it: the blocks are the finitely many ids
`Fin n` owned by the graph, with an entry block and per-block successor edge
targets (`b->succs()`, each edge's `e->target()`). -/
structure Cfg (n : Nat) where
  entry : Fin n
  succs : Fin n → List (Fin n)

/-- The loop of `order_blocks`: pop the top of `to_visit`; skip it if already
visited, otherwise visit it (append to the output) and push its successor
targets. Pushing the successors in order onto a stack means they are popped
in reverse order, modelled by prepending the reversed successor list. -/
def order_blocks_aux {n : Nat} (succs : Fin n → List (Fin n)) :
    List (Fin n) → Finset (Fin n) → List (Fin n)
  | [], _ => []
  | b :: stk, visited =>
    if b ∈ visited then order_blocks_aux succs stk visited
    else b :: order_blocks_aux succs ((succs b).reverse ++ stk) (insert b visited)
termination_by stack visited => ((Finset.univ \ visited).card, stack.length)
decreasing_by
· exact Prod.Lex.right _ (Nat.lt_succ_self _)
· apply Prod.Lex.left
  apply Finset.card_lt_card
  refine (Finset.ssubset_iff_of_subset
    (Finset.sdiff_subset_sdiff (Finset.Subset.refl _) (Finset.subset_insert _ _))).mpr ?_
  refine ⟨b, ?_, ?_⟩
  · simp_all
  · simp

/-- Mirrors `order_blocks`: start from the entry block with an empty visited
set. -/
def order_blocks {n : Nat} (cfg : Cfg n) : List (Fin n) :=
  order_blocks_aux cfg.succs [cfg.entry] ∅

/-- One successor-edge step of the CFG. -/
def Step {n : Nat} (cfg : Cfg n) (x y : Fin n) : Prop := y ∈ cfg.succs x

/-- A block is reachable when some chain of successor edges leads to it from
the entry block. -/
def ReachableBlock {n : Nat} (cfg : Cfg n) (b : Fin n) : Prop :=
  Relation.ReflTransGen (Step cfg) cfg.entry b

/-- A successor step whose target avoids the set `V`. -/
def StepOut {n : Nat} (succs : Fin n → List (Fin n)) (V : Finset (Fin n))
    (x y : Fin n) : Prop :=
  y ∈ succs x ∧ y ∉ V

lemma stepOut_mono {n : Nat} {succs : Fin n → List (Fin n)} {V W : Finset (Fin n)}
    (hVW : V ⊆ W) {x y : Fin n} (h : StepOut succs W x y) : StepOut succs V x y :=
  ⟨h.1, fun hy => h.2 (hVW hy)⟩

/-- Path surgery: a `V`-avoiding path to `b ≠ x` either avoids `x` entirely,
or can be restarted just after the last visit to `x`, at one of `x`'s
successors. -/
lemma reach_avoid_surgery {n : Nat} {succs : Fin n → List (Fin n)} {V : Finset (Fin n)}
    {x : Fin n} :
    ∀ {s b : Fin n}, Relation.ReflTransGen (StepOut succs V) s b → b ≠ x →
      (s ≠ x ∧ Relation.ReflTransGen (StepOut succs (insert x V)) s b) ∨
      (∃ t, t ∈ succs x ∧ t ∉ insert x V ∧
        Relation.ReflTransGen (StepOut succs (insert x V)) t b) := by
  intro s b h hbx
  induction h using Relation.ReflTransGen.head_induction_on with
  | refl => exact Or.inl ⟨hbx, Relation.ReflTransGen.refl⟩
  | head h' hrest ih =>
    rename_i a c
    rcases ih with ⟨hc_ne, hc_path⟩ | ⟨t, ht⟩
    · by_cases hax : a = x
      · subst hax
        refine Or.inr ⟨c, h'.1, ?_, hc_path⟩
        simp only [Finset.mem_insert, not_or]
        exact ⟨hc_ne, h'.2⟩
      · refine Or.inl ⟨hax, hc_path.head ?_⟩
        refine ⟨h'.1, ?_⟩
        simp only [Finset.mem_insert, not_or]
        exact ⟨hc_ne, h'.2⟩
    · exact Or.inr ⟨t, ht⟩

lemma order_blocks_aux_not_visited {n : Nat} (succs : Fin n → List (Fin n)) :
    ∀ (stack : List (Fin n)) (visited : Finset (Fin n)) (b : Fin n),
      b ∈ order_blocks_aux succs stack visited → b ∉ visited := by
  intro stack visited
  induction stack, visited using order_blocks_aux.induct succs with
  | case1 visited =>
    intro b h
    simp [order_blocks_aux] at h
  | case2 hd stk visited hmem ih =>
    intro b h
    rw [order_blocks_aux, if_pos hmem] at h
    exact ih b h
  | case3 hd stk visited hmem ih =>
    intro b h
    rw [order_blocks_aux, if_neg hmem] at h
    rcases List.mem_cons.mp h with rfl | h
    · exact hmem
    · have := ih b h
      simp only [Finset.mem_insert, not_or] at this
      exact this.2

lemma order_blocks_aux_nodup {n : Nat} (succs : Fin n → List (Fin n)) :
    ∀ (stack : List (Fin n)) (visited : Finset (Fin n)),
      (order_blocks_aux succs stack visited).Nodup := by
  intro stack visited
  induction stack, visited using order_blocks_aux.induct succs with
  | case1 visited => simp [order_blocks_aux]
  | case2 hd stk visited hmem ih =>
    rw [order_blocks_aux, if_pos hmem]
    exact ih
  | case3 hd stk visited hmem ih =>
    rw [order_blocks_aux, if_neg hmem]
    refine List.nodup_cons.mpr ⟨?_, ih⟩
    intro hcontra
    have := order_blocks_aux_not_visited succs _ _ _ hcontra
    simp at this

lemma order_blocks_aux_sound {n : Nat} (succs : Fin n → List (Fin n)) :
    ∀ (stack : List (Fin n)) (visited : Finset (Fin n)) (b : Fin n),
      b ∈ order_blocks_aux succs stack visited →
      ∃ s ∈ stack, s ∉ visited ∧
        Relation.ReflTransGen (StepOut succs visited) s b := by
  intro stack visited
  induction stack, visited using order_blocks_aux.induct succs with
  | case1 visited =>
    intro b h
    simp [order_blocks_aux] at h
  | case2 hd stk visited hmem ih =>
    intro b h
    rw [order_blocks_aux, if_pos hmem] at h
    obtain ⟨s, hs, hsv, hpath⟩ := ih b h
    exact ⟨s, List.mem_cons_of_mem hd hs, hsv, hpath⟩
  | case3 hd stk visited hmem ih =>
    intro b h
    rw [order_blocks_aux, if_neg hmem] at h
    rcases List.mem_cons.mp h with rfl | h
    · exact ⟨b, List.mem_cons_self b stk, hmem, Relation.ReflTransGen.refl⟩
    · obtain ⟨s, hs, hsv, hpath⟩ := ih b h
      have hsV : s ∉ visited := by
        simp only [Finset.mem_insert, not_or] at hsv
        exact hsv.2
      have hpathV : Relation.ReflTransGen (StepOut succs visited) s b :=
        hpath.mono (fun _ _ h => stepOut_mono (Finset.subset_insert _ _) h)
      rcases List.mem_append.mp hs with hs | hs

      · refine ⟨hd, List.mem_cons_self hd stk, hmem, ?_⟩
        refine hpathV.head ?_
        exact ⟨List.mem_reverse.mp hs, hsV⟩
      · exact ⟨s, List.mem_cons_of_mem hd hs, hsV, hpathV⟩

lemma order_blocks_aux_complete {n : Nat} (succs : Fin n → List (Fin n)) :
    ∀ (stack : List (Fin n)) (visited : Finset (Fin n)) (b : Fin n),
      (∃ s ∈ stack, s ∉ visited ∧
        Relation.ReflTransGen (StepOut succs visited) s b) →
      b ∈ order_blocks_aux succs stack visited := by
  intro stack visited
  induction stack, visited using order_blocks_aux.induct succs with
  | case1 visited =>
    intro b h
    obtain ⟨s, hs, _⟩ := h
    simp at hs
  | case2 hd stk visited hmem ih =>
    intro b h
    obtain ⟨s, hs, hsv, hpath⟩ := h
    rw [order_blocks_aux, if_pos hmem]
    rcases List.mem_cons.mp hs with rfl | hs
    · exact absurd hmem hsv
    · exact ih b ⟨s, hs, hsv, hpath⟩
  | case3 hd stk visited hmem ih =>
    intro b h
    obtain ⟨s, hs, hsv, hpath⟩ := h
    rw [order_blocks_aux, if_neg hmem]
    by_cases hbhd : b = hd
    · subst hbhd
      exact List.mem_cons_self b _
    · refine List.mem_cons_of_mem hd (ih b ?_)
      rcases reach_avoid_surgery hpath hbhd with ⟨hs_ne, hpath'⟩ | ⟨t, ht_succ, ht_nv, hpath'⟩
      · rcases List.mem_cons.mp hs with rfl | hs
        · exact absurd rfl hs_ne
        · refine ⟨s, List.mem_append_right _ hs, ?_, hpath'⟩
          simp only [Finset.mem_insert, not_or]
          exact ⟨hs_ne, hsv⟩
      · exact ⟨t, List.mem_append_left _ (List.mem_reverse.mpr ht_succ), ht_nv, hpath'⟩

/-- Membership in the `order_blocks` output coincides with reachability from
the entry block. -/
lemma order_blocks_mem_iff {n : Nat} (cfg : Cfg n) (b : Fin n) :
    b ∈ order_blocks cfg ↔ ReachableBlock cfg b := by
  constructor
  · intro h
    obtain ⟨s, hs, _, hpath⟩ := order_blocks_aux_sound cfg.succs _ _ b h
    rcases List.mem_singleton.mp hs with rfl
    exact hpath.mono (fun _ _ h => h.1)
  · intro h
    refine order_blocks_aux_complete cfg.succs _ _ b
      ⟨cfg.entry, List.mem_singleton_self _, Finset.not_mem_empty _, ?_⟩
    exact h.mono (fun _ _ hstep => ⟨hstep, Finset.not_mem_empty _⟩)

/-- C9: the list `order_blocks` produces starts with the entry block, contains
no block twice, and contains a block iff it is reachable from the entry block
by following successor edges. -/
theorem C9_order_blocks_dfs_correct {n : Nat} (cfg : Cfg n) :
    (order_blocks cfg).head? = some cfg.entry ∧
      (order_blocks cfg).Nodup ∧
      ∀ b, b ∈ order_blocks cfg ↔ ReachableBlock cfg b := by
  refine ⟨?_, order_blocks_aux_nodup cfg.succs _ _, fun b => order_blocks_mem_iff cfg b⟩
  rw [order_blocks, order_blocks_aux, if_neg (Finset.not_mem_empty cfg.entry)]
  rfl

/-! Section: apply_transform: cleanup once, then metrics, then swap (claim C6) -/

/-- Events in the tail of `apply_transform`, in the order the source performs
them: the per-transform CFG edits, the single
`cfg.remove_unreachable_blocks()` call, the metric computation, and the final
`method->set_code(std::move(mt.code_copy))`. -/
inductive ApplyEvent where
  | editBranch : ApplyEvent
  | removeUnreachableBlocks : ApplyEvent
  | computeMetrics : ApplyEvent
  | setCode : ApplyEvent
deriving DecidableEq, Repr

/-- Modelled from the spec: `ControlFlowGraph::remove_unreachable_blocks` (CFG
library, not under src/) computes reachability from the entry block and
deletes the unreachable blocks; here the kept live set is computed with the
depth-first order of `order_blocks`, whose output is exactly the reachable
blocks. -/
def remove_unreachable_blocks {n : Nat} (cfg : Cfg n) (live : Finset (Fin n)) :
    Finset (Fin n) :=
  live.filter (fun b => b ∈ order_blocks cfg)

/-- Mirrors `apply_transform`'s per-method work on a code state
`(cfg, live block set)`: fold the planned branch edits over the CFG copy,
prune unreachable blocks exactly once, then compute metrics and install the
copy; the event list records the order. -/
def apply_transform_model {n : Nat} (transforms : List (Cfg n → Cfg n))
    (code : Cfg n × Finset (Fin n)) :
    (Cfg n × Finset (Fin n)) × List ApplyEvent :=
  let cfgE := transforms.foldl (fun c e => e c) code.1
  ((cfgE, remove_unreachable_blocks cfgE code.2),
    (transforms.map (fun _ => ApplyEvent.editBranch)) ++
      [ApplyEvent.removeUnreachableBlocks, ApplyEvent.computeMetrics, ApplyEvent.setCode])

/-- C6: in `apply_transform`, unreachable-block removal happens exactly once —
after every branch edit, before the metrics and before the edited copy is
swapped in — and consequently every block live in the installed code is
reachable from the entry block of the edited CFG. -/
theorem C6_remove_unreachable_once_before_swap {n : Nat}
    (transforms : List (Cfg n → Cfg n)) (code : Cfg n × Finset (Fin n)) :
    (∃ pre post,
        (apply_transform_model transforms code).2 =
          pre ++ ApplyEvent.removeUnreachableBlocks :: post ∧
        ApplyEvent.removeUnreachableBlocks ∉ pre ∧
        ApplyEvent.removeUnreachableBlocks ∉ post ∧
        (∀ e ∈ pre, e = ApplyEvent.editBranch) ∧
        post = [ApplyEvent.computeMetrics, ApplyEvent.setCode]) ∧
      ∀ b ∈ (apply_transform_model transforms code).1.2,
        ReachableBlock (transforms.foldl (fun c e => e c) code.1) b := by
  constructor
  · refine ⟨transforms.map (fun _ => ApplyEvent.editBranch),
      [ApplyEvent.computeMetrics, ApplyEvent.setCode], rfl, ?_, ?_, ?_, rfl⟩
    · intro hc
      rcases List.mem_map.mp hc with ⟨_, _, hcontra⟩
      exact ApplyEvent.noConfusion hcontra
    · intro hc
      simp at hc
    · intro e he
      rcases List.mem_map.mp he with ⟨_, _, rfl⟩
      rfl
  · intro b hb
    have hb' : b ∈ order_blocks (transforms.foldl (fun c e => e c) code.1) := by
      have := Finset.mem_filter.mp hb
      simpa using this.2
    exact (order_blocks_mem_iff _ b).mp hb'

/-- Witness for C6 at a concrete one-block CFG with no edits. -/
theorem C6_remove_unreachable_once_before_swap_witness :
    (∃ pre post,
        (apply_transform_model ([] : List (Cfg 1 → Cfg 1))
            (⟨0, fun _ => []⟩, Finset.univ)).2 =
          pre ++ ApplyEvent.removeUnreachableBlocks :: post ∧
        ApplyEvent.removeUnreachableBlocks ∉ pre ∧
        ApplyEvent.removeUnreachableBlocks ∉ post ∧
        (∀ e ∈ pre, e = ApplyEvent.editBranch) ∧
        post = [ApplyEvent.computeMetrics, ApplyEvent.setCode]) ∧
      ∀ b ∈ (apply_transform_model ([] : List (Cfg 1 → Cfg 1))
          (⟨0, fun _ => []⟩, Finset.univ)).1.2,
        ReachableBlock (([] : List (Cfg 1 → Cfg 1)).foldl (fun c e => e c)
          (⟨0, fun _ => []⟩ : Cfg 1)) b :=
  C6_remove_unreachable_once_before_swap ([] : List (Cfg 1 → Cfg 1))
    (⟨0, fun _ => []⟩, Finset.univ)

end TransformConstClassBranches
